import Mathlib

/-!
Verification of the auto-backup file organizer
(`auto_backup_file_organizer.py`) against its specification.

The program is shallowly embedded:

* a filesystem path is a list of path segments (`Path := List String`);
* the filesystem is a pair of finite lists: existing file paths and
  existing directory paths (`FS`); `pexists` is Python's `Path.exists()`;
* a scanned entry (one element of the `source.rglob("*")` stream) carries
  its path, whether it is a directory, its byte content, whether hashing
  it succeeds (`readable`, the `try: file_sha1 ... except` in `organize`),
  and whether `shutil.move`/`shutil.copy2` on it succeeds (`placeOk`);
* SHA-1 digests are modelled by the file's byte content itself: the code
  only ever compares digests for equality, and the claims only rely on
  equal content giving equal digests.  A failed digest is `none`,
  modelling the sentinel `digest = ""` set by the `except` branch
  (a real SHA-1 hex digest is never the empty string);
* `organize`'s walk order is taken as an input list of entries (the
  `rglob` stream); Python exceptions from `shutil.move`/`copy2`
  propagate out of `organize`, modelled by `Except OrgError`;
* `mkdir(parents=True, exist_ok=True)` adds every missing ancestor
  directory; the corner case of a *file* already sitting at a directory
  path (where Python would raise) is outside every claim and not
  modelled;
* `f"{stem} ({i}){suffix}"` with Python's `str(i)` decimal rendering is
  `altName`, using Lean's `Nat.repr` (also decimal).
-/

deriving instance DecidableEq for Except

/-- A filesystem path, as its list of segments from the root. -/
abbrev FPath := List String

/-- The filesystem: the finite collection of existing files and
existing directories. -/
structure FS where
  files : List FPath
  dirs : List FPath
deriving DecidableEq

/-- Python `Path.exists()`: the path is an existing file or directory. -/
def pexists (fs : FS) (p : FPath) : Bool :=
  fs.files.contains p || fs.dirs.contains p

/-- The run counters dictionary built at the top of `organize`. -/
structure Counts where
  processed : Nat
  moved : Nat
  copied : Nat
  skipped : Nat
deriving DecidableEq

/-- One element of the `source.rglob("*")` stream. -/
structure Entry where
  path : FPath
  isDir : Bool
  content : List Nat
  readable : Bool
  placeOk : Bool
deriving DecidableEq

/-- What `organize` did with one scanned entry (observable from the
per-entry log lines). -/
inductive Outcome where
  | isDir : Outcome
  | inDest : Outcome
  | dupSkip : Outcome
  | acted : FPath → Outcome
deriving DecidableEq

/-- How a run can abort: `SystemExit` on a bad source directory, or an
uncaught `shutil` exception from `move_or_copy`. -/
inductive OrgError where
  | badSource : OrgError
  | placeFail : OrgError
deriving DecidableEq

/-- Mutable state threaded through the scan loop of `organize`:
the filesystem, the counters and the `seen_hashes` set. -/
structure St where
  fs : FS
  counts : Counts
  seen : List (List Nat)
deriving DecidableEq

/-- The flags and tables given to `organize` (plus today's date, the
one wall-clock input of `plan_rel_dir`). -/
structure Config where
  source : FPath
  dest : FPath
  copy_mode : Bool
  dry_run : Bool
  use_date : Bool
  skip_duplicates : Bool
  categories : List (String × String)
  today : String

/-- Index of the last `.` in a list of characters, if any. -/
def lastDotPos : List Char → Option Nat
  | [] => none
  | c :: cs =>
    match lastDotPos cs with
    | some i => some (i + 1)
    | none => if c = '.' then some 0 else none

/-- Python `pathlib`'s `Path.suffix` of a file name: the part from the
last dot on, provided that dot is neither the first nor the last
character; otherwise the empty string. -/
def nameSuffix (s : String) : String :=
  match lastDotPos s.data with
  | none => ""
  | some i => if 0 < i ∧ i + 1 < s.data.length then ⟨s.data.drop i⟩ else ""

/-- Python `pathlib`'s `Path.stem` of a file name: the name with
`nameSuffix` removed. -/
def nameStem (s : String) : String :=
  match lastDotPos s.data with
  | none => s
  | some i => if 0 < i ∧ i + 1 < s.data.length then ⟨s.data.take i⟩ else s

/-- Python `Path.name`: the last path segment. -/
def fileName (p : FPath) : String := p.getLastD ""

/-- Python `str.lower()`: lowercase character by character. -/
def strLower (s : String) : String := ⟨s.data.map Char.toLower⟩

/-- Python `str.upper()`: uppercase character by character. -/
def strUpper (s : String) : String := ⟨s.data.map Char.toUpper⟩

/-- Python `dict.get k`: first association for `k`, if any. -/
def tableGet (tbl : List (String × String)) (k : String) : Option String :=
  match tbl with
  | [] => none
  | (k', v) :: t => if k = k' then some v else tableGet t k

/-- `category_for(path, categories)`: look the lowercased extension up
in the table, defaulting to `"Other"`. -/
def category_for (p : FPath) (categories : List (String × String)) : String :=
  (tableGet categories (strLower (nameSuffix (fileName p)))).getD "Other"

/-- Python `ext.lstrip(".")`: drop leading dots. -/
def stripDots (s : String) : String := ⟨s.data.dropWhile (· = '.')⟩

/-- `plan_rel_dir(category, use_date, ext)`: category, optional date,
then the extension uppercased without its dot, or `"MISC"` when the
file has no extension. -/
def plan_rel_dir (category : String) (use_date : Bool) (today : String)
    (ext : String) : FPath :=
  [category] ++ (if use_date then [today] else [])
    ++ [if ext ≠ "" then strUpper (stripDots ext) else "MISC"]

/-- The candidate file name probed at step `i` of the collision loop:
Python `f"{stem} ({i}){suffix}"` (with `str(i)` in decimal). -/
def altName (stem sfx : String) (i : Nat) : String :=
  stem ++ " (" ++ Nat.repr i ++ ")" ++ sfx

/-- The `while True` probe loop of `safe_destination`: starting at
index `i`, return the first `base / altName stem sfx i` that does not
exist.  The loop is given as fuel one more than the number of existing
filesystem entries, which always suffices (see `probe_free_exists`). -/
def probe (fs : FS) (base : FPath) (stem sfx : String) : Nat → Nat → FPath
  | 0, i => base ++ [altName stem sfx i]
  | fuel + 1, i =>
    let alt := base ++ [altName stem sfx i]
    if pexists fs alt then probe fs base stem sfx fuel (i + 1) else alt

/-- Add one directory if missing. -/
def addDir (fs : FS) (d : FPath) : FS :=
  if fs.dirs.contains d then fs else { fs with dirs := d :: fs.dirs }

/-- Python `base.mkdir(parents=True, exist_ok=True)`: create every
missing ancestor of `d`, and `d` itself. -/
def mkdirParents (fs : FS) (d : FPath) : FS :=
  ((List.range d.length).map (fun k => d.take (k + 1))).foldl addDir fs

/-- `safe_destination(dest_root, rel_dir, name)`: make the target
directory, return `base / name` if free, else the first free
`base / name (i).ext`.  Returns the filesystem as mutated by `mkdir`
together with the chosen path. -/
def safe_destination (fs : FS) (dest_root rel_dir : FPath) (name : String) :
    FS × FPath :=
  let base := dest_root ++ rel_dir
  let fs1 := mkdirParents fs base
  let candidate := base ++ [name]
  if pexists fs1 candidate then
    (fs1, probe fs1 base (nameStem name) (nameSuffix name)
      (fs1.files.length + fs1.dirs.length + 1) 1)
  else (fs1, candidate)

/-- `move_or_copy(src, dst, copy_mode, dry_run)`: in dry-run, print
only; otherwise `shutil.copy2` adds the destination file, `shutil.move`
also removes the source file; a failing `shutil` call raises, which
nothing in the program catches. -/
def placeAction (copy_mode dry_run : Bool) (e : Entry) (fs : FS)
    (dst : FPath) : Except OrgError FS :=
  if dry_run then .ok fs
  else if e.placeOk then
    .ok (if copy_mode then { fs with files := dst :: fs.files }
         else { fs with files := dst :: fs.files.erase e.path })
  else .error .placeFail

/-- The body of the `for path in source.rglob("*")` loop of `organize`,
for one entry.  Also reports what was done with the entry. -/
def stepEntry (cfg : Config) (st : St) (e : Entry) :
    Except OrgError (St × Outcome) :=
  if e.isDir then .ok (st, .isDir)
  else if cfg.dest.isPrefixOf e.path then
    .ok ({ st with counts := { st.counts with skipped := st.counts.skipped + 1 } },
      .inDest)
  else
    let counts1 := { st.counts with processed := st.counts.processed + 1 }
    let category := category_for e.path cfg.categories
    let relDir := plan_rel_dir category cfg.use_date cfg.today
      (strLower (nameSuffix (fileName e.path)))
    let sd := safe_destination st.fs cfg.dest relDir (fileName e.path)
    if cfg.skip_duplicates && e.readable && st.seen.contains e.content then
      .ok ({ fs := sd.1, counts := { counts1 with skipped := counts1.skipped + 1 },
             seen := st.seen }, .dupSkip)
    else
      let seen1 := if cfg.skip_duplicates && e.readable then
        e.content :: st.seen else st.seen
      match placeAction cfg.copy_mode cfg.dry_run e sd.1 sd.2 with
      | .error er => .error er
      | .ok fs2 =>
        let counts2 :=
          if cfg.dry_run then counts1
          else if cfg.copy_mode then { counts1 with copied := counts1.copied + 1 }
          else { counts1 with moved := counts1.moved + 1 }
        .ok ({ fs := fs2, counts := counts2, seen := seen1 }, .acted sd.2)

/-- The scan loop of `organize` over the remaining entries; an uncaught
exception from `move_or_copy` aborts the whole run. -/
def runEntries (cfg : Config) (st : St) :
    List Entry → Except OrgError (St × List Outcome)
  | [] => .ok (st, [])
  | e :: es =>
    match stepEntry cfg st e with
    | .error er => .error er
    | .ok (st1, o) =>
      match runEntries cfg st1 es with
      | .error er => .error er
      | .ok (st2, os) => .ok (st2, o :: os)

/-- `organize(source, dest, ...)`: bail out with `SystemExit` unless
the source exists and is a directory, then run the scan loop with fresh
counters and an empty `seen_hashes` set over the `rglob` stream
`entries`. -/
def organize (cfg : Config) (fs0 : FS) (entries : List Entry) :
    Except OrgError (St × List Outcome) :=
  if fs0.dirs.contains cfg.source then
    runEntries cfg
      { fs := fs0, counts := ⟨0, 0, 0, 0⟩, seen := [] } entries
  else .error .badSource

/-- `N` successive `safe_destination` calls for one directory and base
name, each immediately followed by creation of the returned file (as a
move/copy to it does).  Returns the final filesystem and the list of
returned paths in call order. -/
def iterCalls (root rel : FPath) (name : String) : Nat → FS → FS × List FPath
  | 0, fs => (fs, [])
  | n + 1, fs =>
    let sd := safe_destination fs root rel name
    let fs1 := { sd.1 with files := sd.2 :: sd.1.files }
    let rest := iterCalls root rel name n fs1
    (rest.1, sd.2 :: rest.2)

/-- Whether an outcome is a `move_or_copy` action (real or dry-run). -/
def Outcome.isActed : Outcome → Bool
  | .acted _ => true
  | _ => false

/-- How many scanned entries were skipped for lying inside the
destination root. -/
def countInDest : List Outcome → Nat
  | [] => 0
  | .inDest :: os => countInDest os + 1
  | _ :: os => countInDest os

/-- An entry that reaches the duplicate check and is placed without
incident: a file, not inside the destination, hashable, movable. -/
def eligible (cfg : Config) (e : Entry) : Bool :=
  !e.isDir && !cfg.dest.isPrefixOf e.path && e.readable && e.placeOk

/-- The duplicate flags the `seen_hashes` logic assigns to a stream of
hashable entries: `true` exactly when the digest was already seen. -/
def dupFlags (seen : List (List Nat)) : List Entry → List Bool
  | [] => []
  | e :: es =>
    seen.contains e.content ::
      dupFlags (if seen.contains e.content then seen else e.content :: seen) es

/-- Numeric value of a decimal digit character. -/
def charVal (c : Char) : Nat := c.toNat - 48

/-- Numeric value of a decimal digit string, most significant first
(used to invert `Nat.repr`). -/
def val10 : List Char → Nat
  | [] => 0
  | c :: cs => charVal c * 10 ^ cs.length + val10 cs

example : nameSuffix "a.tar.gz" = ".gz" := by decide
example : nameSuffix ".bashrc" = "" := by decide
example : nameSuffix "file." = "" := by decide
example : nameStem "photo.JPG" = "photo" := by decide
example : category_for ["s", "photo.JPG"] [(".jpg", "Images")] = "Images" := by
  decide
example : plan_rel_dir "Images" false "2026-10-12" ".jpg" = ["Images", "JPG"] := by
  decide
example : plan_rel_dir "Other" true "2026-10-12" "" =
    ["Other", "2026-10-12", "MISC"] := by decide

example :
    organize
      ⟨["src"], ["dst"], false, false, false, false,
        [(".jpg", "Images"), (".txt", "Documents")], ""⟩
      ⟨[["src", "a.jpg"], ["src", "b.txt"]], [["src"]]⟩
      [⟨["src", "a.jpg"], false, [1], true, true⟩,
       ⟨["src", "b.txt"], false, [2], true, true⟩] =
    .ok (⟨⟨[["dst", "Documents", "TXT", "b.txt"],
            ["dst", "Images", "JPG", "a.jpg"]],
           [["dst", "Documents", "TXT"], ["dst", "Documents"],
            ["dst", "Images", "JPG"], ["dst", "Images"], ["dst"], ["src"]]⟩,
          ⟨2, 2, 0, 0⟩, []⟩,
        [.acted ["dst", "Images", "JPG", "a.jpg"],
         .acted ["dst", "Documents", "TXT", "b.txt"]]) := by decide

/-! ## Classifier (C5) -/

/-- C5: `category_for` returns the table's category whenever the file's
lowercased extension is a key of the table, and the fallback `"Other"`
whenever it is not; `.JPG` and `.jpg` classify identically. -/
theorem category_for_spec :
    (∀ (p : FPath) (tbl : List (String × String)) (c : String),
        tableGet tbl (strLower (nameSuffix (fileName p))) = some c →
        category_for p tbl = c)
    ∧ (∀ (p : FPath) (tbl : List (String × String)),
        tableGet tbl (strLower (nameSuffix (fileName p))) = none →
        category_for p tbl = "Other")
    ∧ ∀ (q : FPath) (tbl : List (String × String)),
        category_for (q ++ ["photo.JPG"]) tbl =
          category_for (q ++ ["photo.jpg"]) tbl := by
  refine ⟨fun p tbl c h => ?_, fun p tbl h => ?_, fun q tbl => ?_⟩
  · simp [category_for, h]
  · simp [category_for, h]
  · have h1 : fileName (q ++ ["photo.JPG"]) = "photo.JPG" :=
      List.getLastD_concat _ _ _
    have h2 : fileName (q ++ ["photo.jpg"]) = "photo.jpg" :=
      List.getLastD_concat _ _ _
    have h3 : strLower (nameSuffix "photo.JPG") = strLower (nameSuffix "photo.jpg") := by
      decide
    rw [category_for, category_for, h1, h2, h3]

/-- C5 witness. -/
theorem category_for_spec_witness :
    tableGet [(".jpg", "Images")] (strLower (nameSuffix (fileName ["s", "photo.JPG"])))
      = some "Images"
    ∧ category_for ["s", "photo.JPG"] [(".jpg", "Images")] = "Images" :=
  ⟨by decide, category_for_spec.1 ["s", "photo.JPG"] [(".jpg", "Images")] "Images"
    (by decide)⟩

/-! ## Fatal configuration error (C6) -/

/-- C6: when the source path does not exist or is not a directory,
`organize` raises `SystemExit` before processing any entry: the result
is exactly the error, so no counter is incremented, no summary is
produced and no filesystem change is made. -/
theorem organize_bad_source (cfg : Config) (fs0 : FS) (entries : List Entry)
    (h : fs0.dirs.contains cfg.source = false) :
    organize cfg fs0 entries = .error .badSource := by
  have h' : ¬ cfg.source ∈ fs0.dirs := by simpa using h
  simp [organize, h']

/-- C6 witness. -/
theorem organize_bad_source_witness :
    (FS.dirs ⟨[], []⟩).contains ["nope"] = false
    ∧ organize ⟨["nope"], ["dst"], false, false, false, false, [], ""⟩
        ⟨[], []⟩ [⟨["nope", "a"], false, [], true, true⟩] = .error .badSource :=
  ⟨by decide, organize_bad_source _ _ _ (by decide)⟩

/-! ## Loop helpers -/

/-- Unfolding of the scan loop on a successful step. -/
theorem runEntries_cons_ok (cfg : Config) (st : St) (e : Entry) (st1 : St)
    (o : Outcome) (es : List Entry) (h : stepEntry cfg st e = .ok (st1, o)) :
    runEntries cfg st (e :: es) =
      (runEntries cfg st1 es).map (fun r => (r.1, o :: r.2)) := by
  simp only [runEntries, h]
  cases h2 : runEntries cfg st1 es with
  | error er => simp [Except.map]
  | ok r => simp [Except.map]

/-- Unfolding of the scan loop on a failing step. -/
theorem runEntries_cons_error (cfg : Config) (st : St) (e : Entry)
    (er : OrgError) (es : List Entry) (h : stepEntry cfg st e = .error er) :
    runEntries cfg st (e :: es) = .error er := by
  simp [runEntries, h]

/-! ## Entries inside the destination (C7) -/

/-- C7: an entry lying inside the destination root only increments the
`skipped` counter — `processed`, the other counters, the filesystem and
the seen-hash set are untouched, no classify/plan/move/copy happens for
it, and the walk continues with the remaining entries. -/
theorem step_skips_inside_dest (cfg : Config) (st : St) (e : Entry)
    (hd : e.isDir = false) (hp : cfg.dest.isPrefixOf e.path = true) :
    stepEntry cfg st e =
      .ok ({ st with counts := { st.counts with skipped := st.counts.skipped + 1 } },
        .inDest)
    ∧ ∀ es, runEntries cfg st (e :: es) =
        (runEntries cfg
            { st with counts := { st.counts with skipped := st.counts.skipped + 1 } }
            es).map
          (fun r => (r.1, Outcome.inDest :: r.2)) := by
  have h1 : stepEntry cfg st e =
      .ok ({ st with counts := { st.counts with skipped := st.counts.skipped + 1 } },
        .inDest) := by
    simp [stepEntry, hd, hp]
  exact ⟨h1, fun es => runEntries_cons_ok cfg st e _ _ es h1⟩

/-- C7 witness. -/
theorem step_skips_inside_dest_witness :
    (Entry.isDir ⟨["s", "d", "x"], false, [1], true, true⟩) = false
    ∧ (Config.dest ⟨["s"], ["s", "d"], false, false, false, false, [], ""⟩).isPrefixOf
        ["s", "d", "x"] = true
    ∧ stepEntry ⟨["s"], ["s", "d"], false, false, false, false, [], ""⟩
        ⟨⟨[], []⟩, ⟨0, 0, 0, 0⟩, []⟩ ⟨["s", "d", "x"], false, [1], true, true⟩ =
        .ok (⟨⟨[], []⟩, ⟨0, 0, 0, 1⟩, []⟩, .inDest) :=
  ⟨by decide, by decide,
    (step_skips_inside_dest ⟨["s"], ["s", "d"], false, false, false, false, [], ""⟩
      ⟨⟨[], []⟩, ⟨0, 0, 0, 0⟩, []⟩ ⟨["s", "d", "x"], false, [1], true, true⟩
      (by decide) (by decide)).1⟩

/-! ## Digest failure is recovered per file (C8) -/

/-- C8: with duplicate-skipping on, a file whose digest computation
fails is treated as unique: the run does not abort, the file is still
placed (outcome `acted`), it is not counted as skipped, nothing is
added to the seen-hash set, and the walk continues with the remaining
files. -/
theorem step_digest_failure_recovers (cfg : Config) (st : St) (e : Entry)
    (hdup : cfg.skip_duplicates = true) (hr : e.readable = false)
    (hd : e.isDir = false) (hp : cfg.dest.isPrefixOf e.path = false)
    (hdry : cfg.dry_run = false) (hok : e.placeOk = true) :
    ∃ st1 dst, stepEntry cfg st e = .ok (st1, .acted dst)
      ∧ st1.seen = st.seen
      ∧ st1.counts.skipped = st.counts.skipped
      ∧ st1.counts.processed = st.counts.processed + 1
      ∧ ∀ es, runEntries cfg st (e :: es) =
          (runEntries cfg st1 es).map (fun r => (r.1, Outcome.acted dst :: r.2)) := by
  have hstep : ∃ st1 dst, stepEntry cfg st e = .ok (st1, .acted dst)
      ∧ st1.seen = st.seen
      ∧ st1.counts.skipped = st.counts.skipped
      ∧ st1.counts.processed = st.counts.processed + 1 := by
    simp only [stepEntry, placeAction, hd, hp, hdup, hr, hdry, hok]
    cases hcm : cfg.copy_mode <;>
      simp [hcm]
  obtain ⟨st1, dst, h1, h2, h3, h4⟩ := hstep
  exact ⟨st1, dst, h1, h2, h3, h4,
    fun es => runEntries_cons_ok cfg st e st1 (.acted dst) es h1⟩

/-- C8 witness: an unreadable file between two identical readable
files; it is placed, not skipped, and the run continues. -/
theorem step_digest_failure_recovers_witness :
    (⟨["src"], ["dst"], false, false, false, true, [], ""⟩ : Config).skip_duplicates
        = true
    ∧ (⟨["src", "bad.txt"], false, [9], false, true⟩ : Entry).readable = false
    ∧ ∃ st1 dst,
        stepEntry ⟨["src"], ["dst"], false, false, false, true, [], ""⟩
          ⟨⟨[["src", "bad.txt"]], [["src"]]⟩, ⟨0, 0, 0, 0⟩, [[9]]⟩
          ⟨["src", "bad.txt"], false, [9], false, true⟩ = .ok (st1, .acted dst)
        ∧ st1.seen = [[9]]
        ∧ st1.counts.skipped = 0
        ∧ st1.counts.processed = 0 + 1
        ∧ ∀ es, runEntries ⟨["src"], ["dst"], false, false, false, true, [], ""⟩
            ⟨⟨[["src", "bad.txt"]], [["src"]]⟩, ⟨0, 0, 0, 0⟩, [[9]]⟩ (⟨["src", "bad.txt"], false, [9], false, true⟩ :: es) =
            (runEntries ⟨["src"], ["dst"], false, false, false, true, [], ""⟩ st1 es).map
              (fun r => (r.1, Outcome.acted dst :: r.2)) :=
  ⟨by decide, by decide,
    step_digest_failure_recovers _ _ _ (by decide) (by decide) (by decide)
      (by decide) (by decide) (by decide)⟩

/-! ## A move/copy failure aborts the run (C9) -/

/-- C9 counterexample: the first file's `shutil.move` raises; the whole
run aborts with the uncaught exception, the second (perfectly movable)
file is never processed and no counters are returned. -/
theorem place_failure_counterexample :
    organize ⟨["src"], ["dst"], false, false, false, false, [], ""⟩
      ⟨[["src", "a"], ["src", "b"]], [["src"]]⟩
      [⟨["src", "a"], false, [1], true, false⟩,
       ⟨["src", "b"], false, [2], true, true⟩] = .error .placeFail := by
  decide

/-- C9 amended: a failing move/copy of one file does abort the whole
scan — the exception propagates out of `organize`, the remaining
entries (arbitrary `es`) are never processed and no counters are
returned.  Only digest failures are recovered per file. -/
theorem place_failure_aborts (cfg : Config) (st : St) (e : Entry)
    (es : List Entry)
    (hd : e.isDir = false) (hp : cfg.dest.isPrefixOf e.path = false)
    (hdry : cfg.dry_run = false) (hok : e.placeOk = false)
    (hns : st.seen.contains e.content = false) :
    runEntries cfg st (e :: es) = .error .placeFail := by
  have hns2 : ¬ e.content ∈ st.seen := by simpa using hns
  have h1 : stepEntry cfg st e = .error .placeFail := by
    simp [stepEntry, placeAction, hd, hp, hdry, hok, hns2]
  exact runEntries_cons_error cfg st e _ es h1

/-- C9 witness. -/
theorem place_failure_aborts_witness :
    (⟨["src", "a"], false, [1], true, false⟩ : Entry).placeOk = false
    ∧ runEntries ⟨["src"], ["dst"], false, false, false, false, [], ""⟩
        ⟨⟨[["src", "a"]], [["src"]]⟩, ⟨0, 0, 0, 0⟩, []⟩
        [⟨["src", "a"], false, [1], true, false⟩,
         ⟨["src", "b"], false, [2], true, true⟩] = .error .placeFail :=
  ⟨by decide,
    place_failure_aborts _ _ _ _ (by decide) (by decide) (by decide) (by decide)
      (by decide)⟩

/-! ## Counter accounting (C1) -/

theorem countInDest_cons (o : Outcome) (os : List Outcome) :
    countInDest (o :: os) =
      (if o = .inDest then 1 else 0) + countInDest os := by
  cases o with
  | isDir => simp [countInDest]
  | inDest => simp [countInDest, Nat.add_comm]
  | dupSkip => simp [countInDest]
  | acted p => simp [countInDest]

/-- Per-step accounting in a non-dry run: `processed` grows by as much
as `moved + copied + skipped`, except on an in-dest skip, where only
`skipped` grows. -/
theorem stepEntry_counts (cfg : Config) (hdry : cfg.dry_run = false)
    (st : St) (e : Entry) (st1 : St) (o : Outcome)
    (h : stepEntry cfg st e = .ok (st1, o)) :
    st1.counts.processed + (if o = .inDest then 1 else 0)
        + st.counts.moved + st.counts.copied + st.counts.skipped =
      st.counts.processed + st1.counts.moved + st1.counts.copied
        + st1.counts.skipped := by
  simp only [stepEntry, placeAction, hdry] at h
  split at h
  · cases h
    simp
  · split at h
    · cases h
      simp
      omega
    · split at h
      · cases h
        simp
        omega
      · split at h
        · simp at h
        · simp only [Except.ok.injEq, Prod.mk.injEq] at h
          obtain ⟨h1, h2⟩ := h
          subst h1
          subst h2
          cases cfg.copy_mode <;> simp <;> omega

/-- Accounting over the whole scan loop, for any starting counters. -/
theorem runEntries_counts (cfg : Config) (hdry : cfg.dry_run = false) :
    ∀ (entries : List Entry) (st st' : St) (os : List Outcome),
      runEntries cfg st entries = .ok (st', os) →
      st'.counts.processed + countInDest os
          + st.counts.moved + st.counts.copied + st.counts.skipped =
        st.counts.processed + st'.counts.moved + st'.counts.copied
          + st'.counts.skipped := by
  intro entries
  induction entries with
  | nil =>
    intro st st' os h
    simp only [runEntries, Except.ok.injEq, Prod.mk.injEq] at h
    obtain ⟨h1, h2⟩ := h
    subst h1
    subst h2
    simp [countInDest]
  | cons e es ih =>
    intro st st' os h
    cases h1 : stepEntry cfg st e with
    | error er =>
      rw [runEntries_cons_error cfg st e er es h1] at h
      simp at h
    | ok p =>
      obtain ⟨st1, o⟩ := p
      rw [runEntries_cons_ok cfg st e st1 o es h1] at h
      cases h2 : runEntries cfg st1 es with
      | error er => rw [h2] at h; simp [Except.map] at h
      | ok q =>
        obtain ⟨st2, os2⟩ := q
        rw [h2] at h
        simp only [Except.map, Except.ok.injEq, Prod.mk.injEq] at h
        obtain ⟨h3, h4⟩ := h
        subst h3
        subst h4
        have hstep := stepEntry_counts cfg hdry st e st1 o h1
        have hrest := ih st1 st2 os2 h2
        rw [countInDest_cons]
        omega

/-- C1 counterexample: a non-dry run whose single scanned entry lies
inside the destination root ends with counters
`processed = 0, moved = 0, copied = 0, skipped = 1`, violating
`processed = moved + copied + skipped`. -/
theorem organize_counts_counterexample :
    (organize ⟨["s"], ["s", "d"], false, false, false, false, [], ""⟩
        ⟨[["s", "d", "x"]], [["s"], ["s", "d"]]⟩
        [⟨["s", "d", "x"], false, [1], true, true⟩]).map (fun r => r.1.counts)
      = .ok ⟨0, 0, 0, 1⟩
    ∧ (⟨0, 0, 0, 1⟩ : Counts).processed ≠
        (⟨0, 0, 0, 1⟩ : Counts).moved + (⟨0, 0, 0, 1⟩ : Counts).copied
          + (⟨0, 0, 0, 1⟩ : Counts).skipped := by
  decide

/-- C1 amended: after every terminating non-dry run,
`processed + (entries skipped for lying inside dest) =
moved + copied + skipped`; in particular `processed = moved + copied +
skipped` whenever no scanned entry lies inside the destination root. -/
theorem organize_counts_amended (cfg : Config) (fs0 : FS)
    (entries : List Entry) (st' : St) (os : List Outcome)
    (hdry : cfg.dry_run = false)
    (h : organize cfg fs0 entries = .ok (st', os)) :
    st'.counts.processed + countInDest os =
      st'.counts.moved + st'.counts.copied + st'.counts.skipped := by
  unfold organize at h
  split at h
  · have := runEntries_counts cfg hdry entries _ st' os h
    simpa using this
  · simp at h

/-- C1 witness: scenario 1 of the spec (two files moved). -/
theorem organize_counts_amended_witness :
    organize ⟨["src"], ["dst"], false, false, false, false,
        [(".jpg", "Images"), (".txt", "Documents")], ""⟩
      ⟨[["src", "a.jpg"], ["src", "b.txt"]], [["src"]]⟩
      [⟨["src", "a.jpg"], false, [1], true, true⟩,
       ⟨["src", "b.txt"], false, [2], true, true⟩] =
      .ok (⟨⟨[["dst", "Documents", "TXT", "b.txt"],
              ["dst", "Images", "JPG", "a.jpg"]],
             [["dst", "Documents", "TXT"], ["dst", "Documents"],
              ["dst", "Images", "JPG"], ["dst", "Images"], ["dst"], ["src"]]⟩,
            ⟨2, 2, 0, 0⟩, []⟩,
          [.acted ["dst", "Images", "JPG", "a.jpg"],
           .acted ["dst", "Documents", "TXT", "b.txt"]])
    ∧ (St.counts ⟨⟨[["dst", "Documents", "TXT", "b.txt"],
              ["dst", "Images", "JPG", "a.jpg"]],
             [["dst", "Documents", "TXT"], ["dst", "Documents"],
              ["dst", "Images", "JPG"], ["dst", "Images"], ["dst"], ["src"]]⟩,
            ⟨2, 2, 0, 0⟩, []⟩).processed + countInDest
        [.acted ["dst", "Images", "JPG", "a.jpg"],
         .acted ["dst", "Documents", "TXT", "b.txt"]] =
      (Counts.moved ⟨2, 2, 0, 0⟩) + (Counts.copied ⟨2, 2, 0, 0⟩)
        + (Counts.skipped ⟨2, 2, 0, 0⟩) :=
  ⟨by decide,
    organize_counts_amended
      ⟨["src"], ["dst"], false, false, false, false,
        [(".jpg", "Images"), (".txt", "Documents")], ""⟩
      ⟨[["src", "a.jpg"], ["src", "b.txt"]], [["src"]]⟩
      [⟨["src", "a.jpg"], false, [1], true, true⟩,
       ⟨["src", "b.txt"], false, [2], true, true⟩]
      ⟨⟨[["dst", "Documents", "TXT", "b.txt"],
              ["dst", "Images", "JPG", "a.jpg"]],
             [["dst", "Documents", "TXT"], ["dst", "Documents"],
              ["dst", "Images", "JPG"], ["dst", "Images"], ["dst"], ["src"]]⟩,
            ⟨2, 2, 0, 0⟩, []⟩
      [.acted ["dst", "Images", "JPG", "a.jpg"],
       .acted ["dst", "Documents", "TXT", "b.txt"]]
      (by decide) (by decide)⟩

/-! ## Dry-run behaviour (C2) -/

theorem foldl_addDir_files (l : List FPath) (fs : FS) :
    (l.foldl addDir fs).files = fs.files := by
  induction l generalizing fs with
  | nil => rfl
  | cons d l ih =>
    rw [List.foldl_cons, ih]
    unfold addDir
    split <;> rfl

theorem mkdirParents_files (fs : FS) (d : FPath) :
    (mkdirParents fs d).files = fs.files :=
  foldl_addDir_files _ _

theorem safe_destination_files (fs : FS) (dest rel : FPath) (name : String) :
    (safe_destination fs dest rel name).1.files = fs.files := by
  unfold safe_destination
  simp only []
  split <;> exact mkdirParents_files _ _

/-- A dry-run step never touches any file and never increments `moved`
or `copied` (directories may still be created by `safe_destination`). -/
theorem stepEntry_dry (cfg : Config) (hdry : cfg.dry_run = true)
    (st : St) (e : Entry) (st1 : St) (o : Outcome)
    (h : stepEntry cfg st e = .ok (st1, o)) :
    st1.fs.files = st.fs.files
      ∧ st1.counts.moved = st.counts.moved
      ∧ st1.counts.copied = st.counts.copied := by
  simp only [stepEntry, placeAction, hdry, if_true] at h
  split at h
  · cases h
    exact ⟨rfl, rfl, rfl⟩
  · split at h
    · cases h
      exact ⟨rfl, rfl, rfl⟩
    · split at h
      · cases h
        exact ⟨safe_destination_files _ _ _ _, rfl, rfl⟩
      · simp only [Except.ok.injEq, Prod.mk.injEq] at h
        obtain ⟨h1, h2⟩ := h
        subst h1
        exact ⟨safe_destination_files _ _ _ _, rfl, rfl⟩

/-- Dry-run invariance over the whole scan loop. -/
theorem runEntries_dry (cfg : Config) (hdry : cfg.dry_run = true) :
    ∀ (entries : List Entry) (st st' : St) (os : List Outcome),
      runEntries cfg st entries = .ok (st', os) →
      st'.fs.files = st.fs.files
        ∧ st'.counts.moved = st.counts.moved
        ∧ st'.counts.copied = st.counts.copied := by
  intro entries
  induction entries with
  | nil =>
    intro st st' os h
    simp only [runEntries, Except.ok.injEq, Prod.mk.injEq] at h
    obtain ⟨h1, h2⟩ := h
    subst h1
    exact ⟨rfl, rfl, rfl⟩
  | cons e es ih =>
    intro st st' os h
    cases h1 : stepEntry cfg st e with
    | error er =>
      rw [runEntries_cons_error cfg st e er es h1] at h
      simp at h
    | ok p =>
      obtain ⟨st1, o⟩ := p
      rw [runEntries_cons_ok cfg st e st1 o es h1] at h
      cases h2 : runEntries cfg st1 es with
      | error er => rw [h2] at h; simp [Except.map] at h
      | ok q =>
        obtain ⟨st2, os2⟩ := q
        rw [h2] at h
        simp only [Except.map, Except.ok.injEq, Prod.mk.injEq] at h
        obtain ⟨h3, h4⟩ := h
        subst h3
        obtain ⟨a1, a2, a3⟩ := stepEntry_dry cfg hdry st e st1 o h1
        obtain ⟨b1, b2, b3⟩ := ih st1 st2 os2 h2
        exact ⟨b1.trans a1, b2.trans a2, b3.trans a3⟩

/-- C2 counterexample: a dry-run still mutates the filesystem — the
destination category directories are created by `safe_destination`'s
`mkdir(parents=True)`, which runs before the dry-run check in
`move_or_copy`.  The destination tree is not byte-for-byte unchanged. -/
theorem dry_run_mutates_dirs_counterexample :
    (organize ⟨["src"], ["dst"], false, true, false, false, [], ""⟩
        ⟨[["src", "a.xyz"]], [["src"]]⟩
        [⟨["src", "a.xyz"], false, [1], true, true⟩]).map (fun r => r.1.fs.dirs)
      = .ok [["dst", "Other", "XYZ"], ["dst", "Other"], ["dst"], ["src"]]
    ∧ [["dst", "Other", "XYZ"], ["dst", "Other"], ["dst"], ["src"]] ≠
        [(["src"] : FPath)] := by
  decide

/-- C2 amended: a dry-run performs no file mutation — no file is
created, removed or overwritten (the file set is exactly unchanged) and
`moved = copied = 0` — but destination directories are still created by
`safe_destination` before the dry-run check. -/
theorem organize_dry_run_files (cfg : Config) (fs0 : FS)
    (entries : List Entry) (st' : St) (os : List Outcome)
    (hdry : cfg.dry_run = true)
    (h : organize cfg fs0 entries = .ok (st', os)) :
    st'.fs.files = fs0.files
      ∧ st'.counts.moved = 0 ∧ st'.counts.copied = 0 := by
  unfold organize at h
  split at h
  · exact runEntries_dry cfg hdry entries _ st' os h
  · simp at h

/-- C2 witness. -/
theorem organize_dry_run_files_witness :
    organize ⟨["src"], ["dst"], false, true, false, false, [], ""⟩
        ⟨[["src", "a.xyz"]], [["src"]]⟩
        [⟨["src", "a.xyz"], false, [1], true, true⟩] =
      .ok (⟨⟨[["src", "a.xyz"]],
             [["dst", "Other", "XYZ"], ["dst", "Other"], ["dst"], ["src"]]⟩,
            ⟨1, 0, 0, 0⟩, []⟩, [.acted ["dst", "Other", "XYZ", "a.xyz"]])
    ∧ (FS.files ⟨[["src", "a.xyz"]],
          [["dst", "Other", "XYZ"], ["dst", "Other"], ["dst"], ["src"]]⟩
        = [["src", "a.xyz"]]
      ∧ Counts.moved ⟨1, 0, 0, 0⟩ = 0 ∧ Counts.copied ⟨1, 0, 0, 0⟩ = 0) :=
  ⟨by decide,
    organize_dry_run_files ⟨["src"], ["dst"], false, true, false, false, [], ""⟩
      ⟨[["src", "a.xyz"]], [["src"]]⟩
      [⟨["src", "a.xyz"], false, [1], true, true⟩]
      ⟨⟨[["src", "a.xyz"]],
        [["dst", "Other", "XYZ"], ["dst", "Other"], ["dst"], ["src"]]⟩,
       ⟨1, 0, 0, 0⟩, []⟩
      [.acted ["dst", "Other", "XYZ", "a.xyz"]]
      (by decide) (by decide)⟩

/-! ## Duplicate skipping (C3, C10) -/

/-- Step on an already-seen digest: the entry is counted skipped, the
seen set is unchanged, outcome `dupSkip`. -/
theorem stepEntry_dup (cfg : Config) (st : St) (e : Entry)
    (hdup : cfg.skip_duplicates = true) (hd : e.isDir = false)
    (hp : cfg.dest.isPrefixOf e.path = false) (hr : e.readable = true)
    (hseen : st.seen.contains e.content = true) :
    ∃ fs1, stepEntry cfg st e =
      .ok (⟨fs1, { st.counts with processed := st.counts.processed + 1, skipped := st.counts.skipped + 1 }, st.seen⟩, .dupSkip) := by
  refine ⟨(safe_destination st.fs cfg.dest
      (plan_rel_dir (category_for e.path cfg.categories) cfg.use_date cfg.today
        (strLower (nameSuffix (fileName e.path)))) (fileName e.path)).1, ?_⟩
  have hseen2 : e.content ∈ st.seen := by simpa using hseen
  simp [stepEntry, hdup, hd, hp, hr, hseen2]

/-- Step on a new digest: the digest is recorded and the entry is
placed, outcome `acted`. -/
theorem stepEntry_new (cfg : Config) (st : St) (e : Entry)
    (hdup : cfg.skip_duplicates = true) (hd : e.isDir = false)
    (hp : cfg.dest.isPrefixOf e.path = false) (hr : e.readable = true)
    (hdry : cfg.dry_run = false) (hok : e.placeOk = true)
    (hseen : st.seen.contains e.content = false) :
    ∃ fs2 cnt dst, stepEntry cfg st e =
      .ok (⟨fs2, cnt, e.content :: st.seen⟩, .acted dst) := by
  have hseen2 : ¬ e.content ∈ st.seen := by simpa using hseen
  simp only [stepEntry, placeAction, hdup, hd, hp, hr, hdry, hok]
  cases hcm : cfg.copy_mode <;> simp [hseen2]

/-- The scan loop on all-eligible entries with dedupe on, in a non-dry
run: it succeeds, and the outcomes are `dupSkip` exactly as predicted
by `dupFlags` on the starting seen set, every other outcome being a
placement. -/
theorem runEntries_dedupe (cfg : Config) (hdup : cfg.skip_duplicates = true)
    (hdry : cfg.dry_run = false) :
    ∀ (entries : List Entry) (st : St),
      (∀ e ∈ entries, eligible cfg e = true) →
      ∃ st' os, runEntries cfg st entries = .ok (st', os)
        ∧ os.map (fun o => o == Outcome.dupSkip) = dupFlags st.seen entries
        ∧ ∀ o ∈ os, o = .dupSkip ∨ o.isActed = true := by
  intro entries
  induction entries with
  | nil =>
    intro st helig
    exact ⟨st, [], by simp [runEntries], by simp [dupFlags], by simp⟩
  | cons e es ih =>
    intro st helig
    have he : eligible cfg e = true := helig e (List.mem_cons_self e es)
    have hes : ∀ x ∈ es, eligible cfg x = true :=
      fun x hx => helig x (List.mem_cons_of_mem e hx)
    have hd : e.isDir = false := by
      revert he; unfold eligible; cases e.isDir <;> simp
    have hp : cfg.dest.isPrefixOf e.path = false := by
      revert he; unfold eligible; cases cfg.dest.isPrefixOf e.path <;> simp
    have hr : e.readable = true := by
      revert he; unfold eligible; cases e.readable <;> simp
    have hok : e.placeOk = true := by
      revert he; unfold eligible; cases e.placeOk <;> simp
    cases hseen : st.seen.contains e.content with
    | true =>
      obtain ⟨fs1, hstep⟩ := stepEntry_dup cfg st e hdup hd hp hr hseen
      obtain ⟨st2, os2, hrun, hflags, htwo⟩ :=
        ih ⟨fs1, { st.counts with processed := st.counts.processed + 1, skipped := st.counts.skipped + 1 }, st.seen⟩ hes
      refine ⟨st2, .dupSkip :: os2, ?_, ?_, ?_⟩
      · rw [runEntries_cons_ok cfg st e _ _ es hstep, hrun]
        simp [Except.map]
      · simp only [List.map_cons, dupFlags, hseen]
        exact congrArg _ hflags
      · intro o ho
        rcases List.mem_cons.mp ho with h | h
        · exact Or.inl h
        · exact htwo o h
    | false =>
      obtain ⟨fs2, cnt, dst, hstep⟩ :=
        stepEntry_new cfg st e hdup hd hp hr hdry hok hseen
      obtain ⟨st2, os2, hrun, hflags, htwo⟩ :=
        ih ⟨fs2, cnt, e.content :: st.seen⟩ hes
      refine ⟨st2, .acted dst :: os2, ?_, ?_, ?_⟩
      · rw [runEntries_cons_ok cfg st e _ _ es hstep, hrun]
        simp [Except.map]
      · simp only [List.map_cons, dupFlags, hseen]
        exact congrArg _ hflags
      · intro o ho
        rcases List.mem_cons.mp ho with h | h
        · right; rw [h]; rfl
        · exact htwo o h

theorem dupFlags_length (entries : List Entry) :
    ∀ seen, (dupFlags seen entries).length = entries.length := by
  induction entries with
  | nil => intro seen; rfl
  | cons e es ih => intro seen; simp [dupFlags, ih]

theorem mem_seen_update (seen : List (List Nat)) (d c : List Nat) :
    (c ∈ if seen.contains d then seen else d :: seen) ↔ (c ∈ seen ∨ c = d) := by
  split
  · rename_i h
    have hd : d ∈ seen := by simpa using h
    constructor
    · exact Or.inl
    · rintro (h1 | rfl)
      · exact h1
      · exact hd
  · simp [List.mem_cons]
    constructor
    · rintro (rfl | h1)
      · exact Or.inr rfl
      · exact Or.inl h1
    · rintro (h1 | rfl)
      · exact Or.inr h1
      · exact Or.inl rfl

theorem dupFlags_get :
    ∀ (entries : List Entry) (seen : List (List Nat)) (i : Nat)
      (hi : i < entries.length) (hf : i < (dupFlags seen entries).length),
      ((dupFlags seen entries).get ⟨i, hf⟩ = true ↔
        ((entries.get ⟨i, hi⟩).content ∈ seen
          ∨ ∃ j, ∃ hj : j < i,
              (entries.get ⟨j, hj.trans hi⟩).content
                = (entries.get ⟨i, hi⟩).content)) := by
  intro entries
  induction entries with
  | nil => intro seen i hi hf; exact absurd hi (by simp)
  | cons e es ih =>
    intro seen i hi hf
    cases i with
    | zero =>
      simp only [dupFlags, List.get_cons_zero]
      constructor
      · intro h
        exact Or.inl (by simpa using h)
      · rintro (h | ⟨j, hj, _⟩)
        · simpa using h
        · exact absurd hj (Nat.not_lt_zero j)
    | succ i =>
      have hi2 : i < es.length := Nat.lt_of_succ_lt_succ hi
      have hf2 : i <
          (dupFlags (if seen.contains e.content then seen
            else e.content :: seen) es).length := by
        rw [dupFlags_length]; exact hi2
      have hih := ih (if seen.contains e.content then seen
        else e.content :: seen) i hi2 hf2
      simp only [dupFlags, List.get_cons_succ]
      rw [hih, mem_seen_update]
      constructor
      · rintro ((h | hce) | ⟨j, hj, hc⟩)
        · exact Or.inl h
        · exact Or.inr ⟨0, Nat.succ_pos i, hce.symm⟩
        · exact Or.inr ⟨j + 1, Nat.succ_lt_succ hj, hc⟩
      · rintro (h | ⟨j, hj, hc⟩)
        · exact Or.inl (Or.inl h)
        · cases j with
          | zero => exact Or.inl (Or.inr hc.symm)
          | succ j => exact Or.inr ⟨j, Nat.lt_of_succ_lt_succ hj, hc⟩

/-- Least witness of a nonempty set of naturals. -/
theorem exists_least {P : Nat → Prop} (h : ∃ n, P n) :
    ∃ n, P n ∧ ∀ m, m < n → ¬ P m := by
  classical
  exact ⟨Nat.find h, Nat.find_spec h, fun m hm => Nat.find_min h hm⟩

/-- Full characterization of a dedupe run: the run succeeds and an
entry is placed iff no earlier entry has the same content. -/
theorem organize_dedupe_char (cfg : Config) (fs0 : FS)
    (entries : List Entry)
    (hdup : cfg.skip_duplicates = true) (hdry : cfg.dry_run = false)
    (hsrc : fs0.dirs.contains cfg.source = true)
    (helig : ∀ e ∈ entries, eligible cfg e = true) :
    ∃ st' os, organize cfg fs0 entries = .ok (st', os)
      ∧ os.length = entries.length
      ∧ ∀ i (hi : i < entries.length) (ho : i < os.length),
          ((∀ j (hj : j < i),
              (entries.get ⟨j, hj.trans hi⟩).content
                ≠ (entries.get ⟨i, hi⟩).content) →
            (os.get ⟨i, ho⟩).isActed = true)
          ∧ ((∃ j, ∃ hj : j < i,
              (entries.get ⟨j, hj.trans hi⟩).content
                = (entries.get ⟨i, hi⟩).content) →
            os.get ⟨i, ho⟩ = .dupSkip) := by
  obtain ⟨st', os, hrun, hflags, htwo⟩ :=
    runEntries_dedupe cfg hdup hdry entries
      ⟨fs0, ⟨0, 0, 0, 0⟩, []⟩ helig
  have hsrc2 : cfg.source ∈ fs0.dirs := by simpa using hsrc
  have horg : organize cfg fs0 entries = .ok (st', os) := by
    simp only [organize]
    rw [if_pos (by simpa using hsrc2)]
    exact hrun
  have hlen : os.length = entries.length := by
    have := congrArg List.length hflags
    simpa [dupFlags_length] using this
  refine ⟨st', os, horg, hlen, ?_⟩
  intro i hi ho
  have hfl : i < (dupFlags [] entries).length := by
    rw [dupFlags_length]; exact hi
  have hmap : (os.get ⟨i, ho⟩ == Outcome.dupSkip) =
      (dupFlags [] entries).get ⟨i, hfl⟩ := by
    have hlt : i < (List.map (fun o => o == Outcome.dupSkip) os).length := by
      simpa using ho
    have h1 := List.get_of_eq hflags ⟨i, hlt⟩
    have h2 : (List.map (fun o => o == Outcome.dupSkip) os).get ⟨i, hlt⟩ =
        (os.get ⟨i, ho⟩ == Outcome.dupSkip) := by
      simp
    rw [h2] at h1
    exact h1
  have hchar := dupFlags_get entries [] i hi hfl
  constructor
  · intro hnone
    have hflag : (dupFlags [] entries).get ⟨i, hfl⟩ = false := by
      cases hflagv : (dupFlags [] entries).get ⟨i, hfl⟩ with
      | false => rfl
      | true =>
        rcases hchar.mp hflagv with h | ⟨j, hj, hc⟩
        · exact absurd h (by simp)
        · exact absurd hc (hnone j hj)
    have hne : os.get ⟨i, ho⟩ ≠ .dupSkip := by
      intro hcontra
      rw [hcontra] at hmap
      rw [hflag] at hmap
      simp at hmap
    rcases htwo (os.get ⟨i, ho⟩) (os.get_mem _ _) with h | h
    · exact absurd h hne
    · exact h
  · intro hdupex
    have hflag : (dupFlags [] entries).get ⟨i, hfl⟩ = true :=
      hchar.mpr (Or.inr hdupex)
    rw [hflag] at hmap
    exact eq_of_beq hmap

/-- C10: with duplicate-skipping on, all digests computable and no
per-file incident, `organize` places exactly the first entry of each
content class in traversal order; every later entry with the same
content is skipped as a duplicate and not placed. -/
theorem first_occurrence_placed (cfg : Config) (fs0 : FS)
    (entries : List Entry)
    (hdup : cfg.skip_duplicates = true) (hdry : cfg.dry_run = false)
    (hsrc : fs0.dirs.contains cfg.source = true)
    (helig : ∀ e ∈ entries, eligible cfg e = true) :
    ∃ st' os, organize cfg fs0 entries = .ok (st', os)
      ∧ os.length = entries.length
      ∧ ∀ i (hi : i < entries.length) (ho : i < os.length),
          ((∀ j (hj : j < i),
              (entries.get ⟨j, hj.trans hi⟩).content
                ≠ (entries.get ⟨i, hi⟩).content) →
            (os.get ⟨i, ho⟩).isActed = true)
          ∧ ((∃ j, ∃ hj : j < i,
              (entries.get ⟨j, hj.trans hi⟩).content
                = (entries.get ⟨i, hi⟩).content) →
            os.get ⟨i, ho⟩ = .dupSkip) :=
  organize_dedupe_char cfg fs0 entries hdup hdry hsrc helig

/-- C10 witness: three files, the first and third byte-identical. -/
theorem first_occurrence_placed_witness :
    (∀ e ∈ [(⟨["src", "x.png"], false, [7], true, true⟩ : Entry),
            ⟨["src", "y.png"], false, [8], true, true⟩,
            ⟨["src", "z.png"], false, [7], true, true⟩],
        eligible ⟨["src"], ["dst"], true, false, false, true, [], ""⟩ e = true)
    ∧ ∃ st' os,
        organize ⟨["src"], ["dst"], true, false, false, true, [], ""⟩
            ⟨[["src", "x.png"], ["src", "y.png"], ["src", "z.png"]], [["src"]]⟩
            [⟨["src", "x.png"], false, [7], true, true⟩,
             ⟨["src", "y.png"], false, [8], true, true⟩,
             ⟨["src", "z.png"], false, [7], true, true⟩] = .ok (st', os)
        ∧ os.length = 3
        ∧ ∀ i (hi : i < ([(⟨["src", "x.png"], false, [7], true, true⟩ : Entry),
            ⟨["src", "y.png"], false, [8], true, true⟩,
            ⟨["src", "z.png"], false, [7], true, true⟩] : List Entry).length)
            (ho : i < os.length),
            ((∀ j (hj : j < i),
                (([(⟨["src", "x.png"], false, [7], true, true⟩ : Entry),
                  ⟨["src", "y.png"], false, [8], true, true⟩,
                  ⟨["src", "z.png"], false, [7], true, true⟩] : List Entry).get
                    ⟨j, hj.trans hi⟩).content
                  ≠ (([(⟨["src", "x.png"], false, [7], true, true⟩ : Entry),
                  ⟨["src", "y.png"], false, [8], true, true⟩,
                  ⟨["src", "z.png"], false, [7], true, true⟩] : List Entry).get
                    ⟨i, hi⟩).content) →
              (os.get ⟨i, ho⟩).isActed = true)
            ∧ ((∃ j, ∃ hj : j < i,
                (([(⟨["src", "x.png"], false, [7], true, true⟩ : Entry),
                  ⟨["src", "y.png"], false, [8], true, true⟩,
                  ⟨["src", "z.png"], false, [7], true, true⟩] : List Entry).get
                    ⟨j, hj.trans hi⟩).content
                  = (([(⟨["src", "x.png"], false, [7], true, true⟩ : Entry),
                  ⟨["src", "y.png"], false, [8], true, true⟩,
                  ⟨["src", "z.png"], false, [7], true, true⟩] : List Entry).get
                    ⟨i, hi⟩).content) →
              os.get ⟨i, ho⟩ = .dupSkip) :=
  ⟨by decide,
    first_occurrence_placed ⟨["src"], ["dst"], true, false, false, true, [], ""⟩
      ⟨[["src", "x.png"], ["src", "y.png"], ["src", "z.png"]], [["src"]]⟩
      [⟨["src", "x.png"], false, [7], true, true⟩,
       ⟨["src", "y.png"], false, [8], true, true⟩,
       ⟨["src", "z.png"], false, [7], true, true⟩]
      (by decide) (by decide) (by decide) (by decide)⟩

/-- C3 counterexample: three byte-identical files in one run.  For the
pair formed by the second and the third file — two files of the scanned
source with identical content — neither is placed: both are skipped
(only the first file of the whole content class is placed).  So "for
every pair ... exactly one of the two is placed" fails as stated. -/
theorem dup_pair_counterexample :
    (organize ⟨["src"], ["dst"], true, false, false, true, [], ""⟩
        ⟨[["src", "a"], ["src", "b"], ["src", "c"]], [["src"]]⟩
        [⟨["src", "a"], false, [7], true, true⟩,
         ⟨["src", "b"], false, [7], true, true⟩,
         ⟨["src", "c"], false, [7], true, true⟩]).map
        (fun r => (r.1.counts, r.2))
      = .ok (⟨3, 0, 1, 2⟩,
          [.acted ["dst", "Other", "MISC", "a"], .dupSkip, .dupSkip])
    ∧ Outcome.isActed .dupSkip = false := by
  decide

/-- C3 amended: with duplicate-skipping on (eligible entries, non-dry
run), among all scanned files sharing one content, exactly one is
placed — there is an index placed with that content and every other
index with that content is skipped as a duplicate — and this holds for
every scan order, the entry list being universally quantified. -/
theorem dup_class_exactly_one_placed (cfg : Config) (fs0 : FS)
    (entries : List Entry) (c : List Nat)
    (hdup : cfg.skip_duplicates = true) (hdry : cfg.dry_run = false)
    (hsrc : fs0.dirs.contains cfg.source = true)
    (helig : ∀ e ∈ entries, eligible cfg e = true)
    (hc : ∃ i, ∃ hi : i < entries.length, (entries.get ⟨i, hi⟩).content = c) :
    ∃ st' os, organize cfg fs0 entries = .ok (st', os)
      ∧ os.length = entries.length
      ∧ ∃ i, ∃ hi : i < entries.length, ∃ ho : i < os.length,
          (entries.get ⟨i, hi⟩).content = c
          ∧ (os.get ⟨i, ho⟩).isActed = true
          ∧ ∀ j (hj : j < entries.length) (hjo : j < os.length),
              (entries.get ⟨j, hj⟩).content = c → j ≠ i →
              os.get ⟨j, hjo⟩ = .dupSkip := by
  obtain ⟨st', os, horg, hlen, hchar⟩ :=
    organize_dedupe_char cfg fs0 entries hdup hdry hsrc helig
  obtain ⟨i0, hP, hmin⟩ := exists_least hc
  obtain ⟨hi0, hc0⟩ := hP
  have ho0 : i0 < os.length := by rw [hlen]; exact hi0
  refine ⟨st', os, horg, hlen, i0, hi0, ho0, hc0, ?_, ?_⟩
  · refine (hchar i0 hi0 ho0).1 ?_
    intro j hj hcj
    exact hmin j hj ⟨hj.trans hi0, hcj.trans hc0⟩
  · intro j hj hjo hcj hne
    rcases Nat.lt_trichotomy j i0 with hlt | heq | hgt
    · exact absurd ⟨hj, hcj⟩ (hmin j hlt)
    · exact absurd heq hne
    · refine (hchar j hj hjo).2 ⟨i0, hgt, ?_⟩
      exact hc0.trans hcj.symm

/-- C3 witness: two identical files `x.png`, `y.png` (spec scenario 2). -/
theorem dup_class_exactly_one_placed_witness :
    (∃ i, ∃ hi : i < ([(⟨["src", "x.png"], false, [7], true, true⟩ : Entry),
        ⟨["src", "y.png"], false, [7], true, true⟩] : List Entry).length,
      (([(⟨["src", "x.png"], false, [7], true, true⟩ : Entry),
        ⟨["src", "y.png"], false, [7], true, true⟩] : List Entry).get
          ⟨i, hi⟩).content = [7])
    ∧ ∃ st' os,
        organize ⟨["src"], ["dst"], true, false, false, true,
            [(".png", "Images")], ""⟩
          ⟨[["src", "x.png"], ["src", "y.png"]], [["src"]]⟩
          [⟨["src", "x.png"], false, [7], true, true⟩,
           ⟨["src", "y.png"], false, [7], true, true⟩] = .ok (st', os)
        ∧ os.length = 2
        ∧ ∃ i, ∃ hi : i < ([(⟨["src", "x.png"], false, [7], true, true⟩ : Entry),
            ⟨["src", "y.png"], false, [7], true, true⟩] : List Entry).length,
          ∃ ho : i < os.length,
            (([(⟨["src", "x.png"], false, [7], true, true⟩ : Entry),
              ⟨["src", "y.png"], false, [7], true, true⟩] : List Entry).get
                ⟨i, hi⟩).content = [7]
            ∧ (os.get ⟨i, ho⟩).isActed = true
            ∧ ∀ j (hj : j < ([(⟨["src", "x.png"], false, [7], true, true⟩ : Entry),
                ⟨["src", "y.png"], false, [7], true, true⟩] : List Entry).length)
                (hjo : j < os.length),
                (([(⟨["src", "x.png"], false, [7], true, true⟩ : Entry),
                  ⟨["src", "y.png"], false, [7], true, true⟩] : List Entry).get
                    ⟨j, hj⟩).content = [7] → j ≠ i →
                os.get ⟨j, hjo⟩ = .dupSkip :=
  ⟨⟨0, by decide, by decide⟩,
    dup_class_exactly_one_placed
      ⟨["src"], ["dst"], true, false, false, true, [(".png", "Images")], ""⟩
      ⟨[["src", "x.png"], ["src", "y.png"]], [["src"]]⟩
      [⟨["src", "x.png"], false, [7], true, true⟩,
       ⟨["src", "y.png"], false, [7], true, true⟩] [7]
      (by decide) (by decide) (by decide) (by decide)
      ⟨0, by decide, by decide⟩⟩

/-! ## Collision-free destination naming (C4) -/

theorem charVal_digitChar : ∀ m, m < 10 → charVal (Nat.digitChar m) = m := by
  decide

theorem toDigitsCore_val :
    ∀ (fuel n : Nat) (ds : List Char), n < fuel →
      val10 (Nat.toDigitsCore 10 fuel n ds) = n * 10 ^ ds.length + val10 ds := by
  intro fuel
  induction fuel with
  | zero => intro n ds h; exact absurd h (Nat.not_lt_zero n)
  | succ fuel ih =>
    intro n ds h
    have hmod : n % 10 < 10 := Nat.mod_lt n (by norm_num)
    simp only [Nat.toDigitsCore]
    split
    · rename_i hz
      have hn10 : n < 10 := by
        have hdm := Nat.div_add_mod n 10
        rw [hz] at hdm
        omega
      simp only [val10]
      rw [charVal_digitChar (n % 10) hmod, Nat.mod_eq_of_lt hn10]
    · rename_i hz
      have hpos : 0 < n := by
        rcases Nat.eq_zero_or_pos n with h0 | h0
        · subst h0; simp at hz
        · exact h0
      have hlt : n / 10 < n := Nat.div_lt_self hpos (by norm_num)
      have hfuel : n / 10 < fuel := by omega
      rw [ih (n / 10) (Nat.digitChar (n % 10) :: ds) hfuel]
      simp only [val10, List.length_cons]
      rw [charVal_digitChar (n % 10) hmod]
      have hdm : 10 * (n / 10) + n % 10 = n := Nat.div_add_mod n 10
      have key : n / 10 * 10 ^ (ds.length + 1) + n % 10 * 10 ^ ds.length
          = n * 10 ^ ds.length := by
        rw [pow_succ]
        calc n / 10 * (10 ^ ds.length * 10) + n % 10 * 10 ^ ds.length
            = (10 * (n / 10) + n % 10) * 10 ^ ds.length := by ring
          _ = n * 10 ^ ds.length := by rw [hdm]
      linarith [key]

theorem val10_toDigits (n : Nat) : val10 (Nat.toDigits 10 n) = n := by
  unfold Nat.toDigits
  rw [toDigitsCore_val (n + 1) n [] (Nat.lt_succ_self n)]
  simp [val10]

theorem repr_injective : Function.Injective Nat.repr := by
  intro m n h
  have h2 : Nat.toDigits 10 m = Nat.toDigits 10 n := congrArg String.data h
  have h3 := congrArg val10 h2
  rwa [val10_toDigits, val10_toDigits] at h3

theorem altName_inj (stem sfx : String) {i j : Nat}
    (h : altName stem sfx i = altName stem sfx j) : i = j := by
  unfold altName at h
  have hd := congrArg String.data h
  simp only [String.data_append, List.append_assoc] at hd
  have h1 := List.append_cancel_left hd
  have h2 := List.append_cancel_left h1
  have h3 := List.append_cancel_right h2
  exact repr_injective (String.ext h3)

theorem altPath_inj (base : FPath) (stem sfx : String) {i j : Nat}
    (h : base ++ [altName stem sfx i] = base ++ [altName stem sfx j]) :
    i = j := by
  have h1 := List.append_cancel_left h
  have h2 : altName stem sfx i = altName stem sfx j := by simpa using h1
  exact altName_inj stem sfx h2

theorem pexists_true_iff (fs : FS) (p : FPath) :
    pexists fs p = true ↔ p ∈ fs.files ∨ p ∈ fs.dirs := by
  simp [pexists]

theorem mem_dirs_foldl_addDir :
    ∀ (l : List FPath) (fs : FS) (p : FPath),
      (p ∈ (l.foldl addDir fs).dirs ↔ p ∈ fs.dirs ∨ p ∈ l) := by
  intro l
  induction l with
  | nil => intro fs p; simp
  | cons q l ih =>
    intro fs p
    rw [List.foldl_cons, ih]
    unfold addDir
    split
    · rename_i hq
      have hq2 : q ∈ fs.dirs := by simpa using hq
      simp only [List.mem_cons]
      constructor
      · rintro (h | h)
        · exact Or.inl h
        · exact Or.inr (Or.inr h)
      · rintro (h | rfl | h)
        · exact Or.inl h
        · exact Or.inl hq2
        · exact Or.inr h
    · simp only [List.mem_cons]
      tauto

theorem mkdirParents_dirs_mem (fs : FS) (d p : FPath) :
    p ∈ (mkdirParents fs d).dirs ↔
      p ∈ fs.dirs ∨ p ∈ (List.range d.length).map (fun k => d.take (k + 1)) :=
  mem_dirs_foldl_addDir _ fs p

theorem pexists_mkdirParents_mono (fs : FS) (d p : FPath)
    (h : pexists fs p = true) : pexists (mkdirParents fs d) p = true := by
  rw [pexists_true_iff] at h
  rw [pexists_true_iff, mkdirParents_files, mkdirParents_dirs_mem]
  tauto

theorem pexists_mkdirParents_long (fs : FS) (d p : FPath)
    (hlen : d.length < p.length) :
    pexists (mkdirParents fs d) p = pexists fs p := by
  rw [Bool.eq_iff_iff, pexists_true_iff, pexists_true_iff,
    mkdirParents_files, mkdirParents_dirs_mem]
  constructor
  · rintro (h | h | h)
    · exact Or.inl h
    · exact Or.inr h
    · exfalso
      obtain ⟨k, _, hp⟩ := List.mem_map.mp h
      have hle : p.length ≤ d.length := by
        rw [← hp, List.length_take]
        exact Nat.min_le_right _ _
      omega
  · rintro (h | h)
    · exact Or.inl h
    · exact Or.inr (Or.inl h)

theorem pexists_cons_file_iff (fs : FS) (q p : FPath) :
    pexists ⟨q :: fs.files, fs.dirs⟩ p = true ↔ p = q ∨ pexists fs p = true := by
  simp only [pexists_true_iff]
  show p ∈ q :: fs.files ∨ p ∈ fs.dirs ↔ _
  simp only [List.mem_cons]
  tauto

theorem probe_not_exists (fs : FS) (base : FPath) (stem sfx : String) :
    ∀ (fuel i : Nat),
      (∃ m, m < fuel ∧ pexists fs (base ++ [altName stem sfx (i + m)]) = false) →
      pexists fs (probe fs base stem sfx fuel i) = false := by
  intro fuel
  induction fuel with
  | zero =>
    intro i h
    obtain ⟨m, hm, _⟩ := h
    exact absurd hm (Nat.not_lt_zero m)
  | succ fuel ih =>
    intro i h
    obtain ⟨m, hm, hfree⟩ := h
    simp only [probe]
    split
    · rename_i hcur
      apply ih (i + 1)
      have hm0 : m ≠ 0 := by
        intro h0
        subst h0
        rw [Nat.add_zero] at hfree
        rw [hfree] at hcur
        cases hcur
      refine ⟨m - 1, by omega, ?_⟩
      have he : i + 1 + (m - 1) = i + m := by omega
      rw [he]
      exact hfree
    · rename_i hcur
      simpa using hcur

theorem probe_eq (fs : FS) (base : FPath) (stem sfx : String) :
    ∀ (t fuel i : Nat), t < fuel →
      (∀ m, m < t → pexists fs (base ++ [altName stem sfx (i + m)]) = true) →
      pexists fs (base ++ [altName stem sfx (i + t)]) = false →
      probe fs base stem sfx fuel i = base ++ [altName stem sfx (i + t)] := by
  intro t
  induction t with
  | zero =>
    intro fuel i hfuel hall hfree
    cases fuel with
    | zero => exact absurd hfuel (by omega)
    | succ fuel =>
      rw [Nat.add_zero] at hfree
      rw [Nat.add_zero]
      simp [probe, hfree]
  | succ t ih =>
    intro fuel i hfuel hall hfree
    cases fuel with
    | zero => exact absurd hfuel (by omega)
    | succ fuel =>
      have h0 : pexists fs (base ++ [altName stem sfx i]) = true := by
        have := hall 0 (Nat.succ_pos t)
        rwa [Nat.add_zero] at this
      simp only [probe, h0]
      have hall2 : ∀ m, m < t →
          pexists fs (base ++ [altName stem sfx (i + 1 + m)]) = true := by
        intro m hm
        have := hall (m + 1) (Nat.succ_lt_succ hm)
        have he : i + (m + 1) = i + 1 + m := by omega
        rwa [he] at this
      have hfree2 : pexists fs (base ++ [altName stem sfx (i + 1 + t)]) = false := by
        have he : i + (t + 1) = i + 1 + t := by omega
        rwa [he] at hfree
      have hres := ih fuel (i + 1) (by omega) hall2 hfree2
      rw [hres]
      have he : i + 1 + t = i + (t + 1) := by omega
      rw [he]
      simp

theorem probe_free_exists (fs : FS) (base : FPath) (stem sfx : String)
    (i : Nat) :
    ∃ m, m < fs.files.length + fs.dirs.length + 1
      ∧ pexists fs (base ++ [altName stem sfx (i + m)]) = false := by
  by_contra hcon
  push_neg at hcon
  have hall : ∀ m, m < fs.files.length + fs.dirs.length + 1 →
      pexists fs (base ++ [altName stem sfx (i + m)]) = true := by
    intro m hm
    have hne := hcon m hm
    cases hb : pexists fs (base ++ [altName stem sfx (i + m)]) with
    | true => rfl
    | false => exact absurd hb hne
  have hnodup : ((List.range (fs.files.length + fs.dirs.length + 1)).map
      (fun m => base ++ [altName stem sfx (i + m)])).Nodup := by
    refine List.Nodup.map ?_ (List.nodup_range _)
    intro a b hab
    have := altPath_inj base stem sfx hab
    omega
  have hsub : ∀ p ∈ (List.range (fs.files.length + fs.dirs.length + 1)).map
      (fun m => base ++ [altName stem sfx (i + m)]),
      p ∈ fs.files ++ fs.dirs := by
    intro p hp
    obtain ⟨m, hm, rfl⟩ := List.mem_map.mp hp
    have hmem := (pexists_true_iff fs _).mp (hall m (List.mem_range.mp hm))
    rw [List.mem_append]
    exact hmem
  have hcard1 : ((List.range (fs.files.length + fs.dirs.length + 1)).map
      (fun m => base ++ [altName stem sfx (i + m)])).toFinset.card =
      fs.files.length + fs.dirs.length + 1 := by
    rw [List.toFinset_card_of_nodup hnodup]
    simp
  have hcard2 : ((List.range (fs.files.length + fs.dirs.length + 1)).map
      (fun m => base ++ [altName stem sfx (i + m)])).toFinset.card ≤
      fs.files.length + fs.dirs.length := by
    calc ((List.range (fs.files.length + fs.dirs.length + 1)).map
          (fun m => base ++ [altName stem sfx (i + m)])).toFinset.card
        ≤ (fs.files ++ fs.dirs).toFinset.card := by
          apply Finset.card_le_card
          intro x hx
          rw [List.mem_toFinset] at hx ⊢
          exact hsub x hx
      _ ≤ (fs.files ++ fs.dirs).length := List.toFinset_card_le _
      _ = fs.files.length + fs.dirs.length := by simp
  omega

/-- C4 part (a) as a standalone fact: `safe_destination` never returns
a path that exists (on the filesystem as already mutated by its own
`mkdir`, hence a fortiori on the filesystem at call entry). -/
theorem safe_destination_free (fs : FS) (root rel : FPath) (name : String) :
    pexists (safe_destination fs root rel name).1
      (safe_destination fs root rel name).2 = false := by
  unfold safe_destination
  simp only []
  split
  · exact probe_not_exists (mkdirParents fs (root ++ rel)) (root ++ rel)
      (nameStem name) (nameSuffix name) _ 1
      (probe_free_exists (mkdirParents fs (root ++ rel)) (root ++ rel)
        (nameStem name) (nameSuffix name) 1)
  · rename_i hcond
    simpa using hcond

theorem iterCalls_aux (root rel : FPath) (name : String) :
    ∀ (N j : Nat) (fs : FS),
      pexists fs ((root ++ rel) ++ [name]) = true →
      j ≤ fs.files.length →
      (∀ m, 1 ≤ m → m ≤ j →
        pexists fs ((root ++ rel)
          ++ [altName (nameStem name) (nameSuffix name) m]) = true) →
      (∀ m, j < m → m ≤ j + N →
        pexists fs ((root ++ rel)
          ++ [altName (nameStem name) (nameSuffix name) m]) = false) →
      (iterCalls root rel name N fs).2 =
        (List.range N).map (fun k => (root ++ rel)
          ++ [altName (nameStem name) (nameSuffix name) (j + k + 1)]) := by
  intro N
  induction N with
  | zero => intro j fs _ _ _ _; simp [iterCalls]
  | succ N ih =>
    intro j fs hcand hlen hlo hhi
    have hcand1 : pexists (mkdirParents fs (root ++ rel))
        ((root ++ rel) ++ [name]) = true :=
      pexists_mkdirParents_mono _ _ _ hcand
    have hprobe : probe (mkdirParents fs (root ++ rel)) (root ++ rel)
        (nameStem name) (nameSuffix name)
        ((mkdirParents fs (root ++ rel)).files.length
          + (mkdirParents fs (root ++ rel)).dirs.length + 1) 1 =
        (root ++ rel) ++ [altName (nameStem name) (nameSuffix name) (1 + j)] := by
      apply probe_eq
      · rw [mkdirParents_files]
        omega
      · intro m hm
        have h1 := hlo (m + 1) (by omega) (by omega)
        have h2 := pexists_mkdirParents_mono fs (root ++ rel) _ h1
        have he : 1 + m = m + 1 := by omega
        rw [he]
        exact h2
      · have h1 := hhi (j + 1) (by omega) (by omega)
        have h2 : pexists (mkdirParents fs (root ++ rel))
            ((root ++ rel)
              ++ [altName (nameStem name) (nameSuffix name) (j + 1)])
            = false := by
          rw [pexists_mkdirParents_long]
          · exact h1
          · simp
        have he : 1 + j = j + 1 := by omega
        rw [he]
        exact h2
    have hsd : safe_destination fs root rel name =
        (mkdirParents fs (root ++ rel),
         (root ++ rel) ++ [altName (nameStem name) (nameSuffix name) (j + 1)]) := by
      unfold safe_destination
      simp only []
      rw [if_pos hcand1, hprobe]
      have he : 1 + j = j + 1 := by omega
      rw [he]
    have hcand2 : pexists ⟨((root ++ rel)
          ++ [altName (nameStem name) (nameSuffix name) (j + 1)])
            :: (mkdirParents fs (root ++ rel)).files,
          (mkdirParents fs (root ++ rel)).dirs⟩
        ((root ++ rel) ++ [name]) = true :=
      (pexists_cons_file_iff _ _ _).mpr (Or.inr hcand1)
    have hlen2 : j + 1 ≤ (((root ++ rel)
          ++ [altName (nameStem name) (nameSuffix name) (j + 1)])
            :: (mkdirParents fs (root ++ rel)).files).length := by
      simp only [List.length_cons, mkdirParents_files]
      omega
    have hlo2 : ∀ m, 1 ≤ m → m ≤ j + 1 →
        pexists ⟨((root ++ rel)
            ++ [altName (nameStem name) (nameSuffix name) (j + 1)])
              :: (mkdirParents fs (root ++ rel)).files,
            (mkdirParents fs (root ++ rel)).dirs⟩
          ((root ++ rel)
            ++ [altName (nameStem name) (nameSuffix name) m]) = true := by
      intro m h1 h2
      apply (pexists_cons_file_iff _ _ _).mpr
      rcases Nat.lt_or_ge m (j + 1) with hlt | hge
      · refine Or.inr ?_
        exact pexists_mkdirParents_mono fs (root ++ rel) _
          (hlo m h1 (by omega))
      · have : m = j + 1 := by omega
        subst this
        exact Or.inl rfl
    have hhi2 : ∀ m, j + 1 < m → m ≤ (j + 1) + N →
        pexists ⟨((root ++ rel)
            ++ [altName (nameStem name) (nameSuffix name) (j + 1)])
              :: (mkdirParents fs (root ++ rel)).files,
            (mkdirParents fs (root ++ rel)).dirs⟩
          ((root ++ rel)
            ++ [altName (nameStem name) (nameSuffix name) m]) = false := by
      intro m h1 h2
      cases hb : pexists ⟨((root ++ rel)
          ++ [altName (nameStem name) (nameSuffix name) (j + 1)])
            :: (mkdirParents fs (root ++ rel)).files,
          (mkdirParents fs (root ++ rel)).dirs⟩
        ((root ++ rel) ++ [altName (nameStem name) (nameSuffix name) m]) with
      | false => rfl
      | true =>
        exfalso
        rcases (pexists_cons_file_iff _ _ _).mp hb with heq | hex
        · have := altPath_inj (root ++ rel) (nameStem name) (nameSuffix name) heq
          omega
        · rw [pexists_mkdirParents_long fs (root ++ rel) _ (by simp)] at hex
          rw [hhi m (by omega) (by omega)] at hex
          cases hex
    simp only [iterCalls]
    rw [hsd]
    simp only []
    rw [ih (j + 1) ⟨((root ++ rel)
        ++ [altName (nameStem name) (nameSuffix name) (j + 1)])
          :: (mkdirParents fs (root ++ rel)).files,
        (mkdirParents fs (root ++ rel)).dirs⟩ hcand2 hlen2 hlo2 hhi2]
    rw [List.range_succ_eq_map, List.map_cons, List.map_map]
    have hfe : ((fun k => (root ++ rel)
        ++ [altName (nameStem name) (nameSuffix name) (j + k + 1)])
          ∘ Nat.succ) =
        fun k => (root ++ rel)
          ++ [altName (nameStem name) (nameSuffix name) (j + 1 + k + 1)] := by
      funext k
      simp only [Function.comp]
      have he : j + (k + 1) + 1 = j + 1 + k + 1 := by omega
      rw [he]
    rw [hfe]

/-- C4: `safe_destination` never returns a path that exists at the
time of the call; and for `N` successive calls for the same directory
and base file name — the base name already taken and no numbered
variant yet existing — each followed by creation of the returned file,
the `N` returned paths carry the disambiguators `(1), (2), …, (N)` in
increasing order with no gaps, and are pairwise distinct. -/
theorem safe_destination_spec :
    (∀ (fs : FS) (root rel : FPath) (name : String),
        pexists (safe_destination fs root rel name).1
          (safe_destination fs root rel name).2 = false)
    ∧ ∀ (fs0 : FS) (root rel : FPath) (name : String) (N : Nat),
        pexists fs0 ((root ++ rel) ++ [name]) = true →
        (∀ m, m < N →
          pexists fs0 ((root ++ rel)
            ++ [altName (nameStem name) (nameSuffix name) (m + 1)]) = false) →
        (iterCalls root rel name N fs0).2 =
          (List.range N).map (fun k => (root ++ rel)
            ++ [altName (nameStem name) (nameSuffix name) (k + 1)])
        ∧ (iterCalls root rel name N fs0).2.Nodup := by
  constructor
  · exact safe_destination_free
  · intro fs0 root rel name N hcand hfree
    have hmain := iterCalls_aux root rel name N 0 fs0 hcand (Nat.zero_le _)
      (fun m h1 h2 => absurd (Nat.le_trans h1 h2) (by omega))
      (fun m hm1 hm2 => by
        have h1 := hfree (m - 1) (by omega)
        have he : m - 1 + 1 = m := by omega
        rwa [he] at h1)
    have heq : (iterCalls root rel name N fs0).2 =
        (List.range N).map (fun k => (root ++ rel)
          ++ [altName (nameStem name) (nameSuffix name) (k + 1)]) := by
      rw [hmain]
      have hfe : (fun k => (root ++ rel)
          ++ [altName (nameStem name) (nameSuffix name) (0 + k + 1)]) =
          fun k => (root ++ rel)
            ++ [altName (nameStem name) (nameSuffix name) (k + 1)] := by
        funext k
        rw [Nat.zero_add]
      rw [hfe]
    refine ⟨heq, ?_⟩
    rw [heq]
    refine List.Nodup.map ?_ (List.nodup_range N)
    intro a b hab
    have := altPath_inj (root ++ rel) (nameStem name) (nameSuffix name) hab
    omega

/-- C4 witness: the destination directory already holds `a.txt`; two
successive calls, each followed by creating the returned file, yield
`a (1).txt` then `a (2).txt`, pairwise distinct. -/
theorem safe_destination_spec_witness :
    pexists ⟨[["d", "r", "a.txt"]], []⟩ ((["d"] ++ ["r"]) ++ ["a.txt"]) = true
    ∧ (∀ m, m < 2 →
        pexists ⟨[["d", "r", "a.txt"]], []⟩ ((["d"] ++ ["r"])
          ++ [altName (nameStem "a.txt") (nameSuffix "a.txt") (m + 1)]) = false)
    ∧ ((iterCalls ["d"] ["r"] "a.txt" 2 ⟨[["d", "r", "a.txt"]], []⟩).2 =
        (List.range 2).map (fun k => (["d"] ++ ["r"])
          ++ [altName (nameStem "a.txt") (nameSuffix "a.txt") (k + 1)])
      ∧ (iterCalls ["d"] ["r"] "a.txt" 2 ⟨[["d", "r", "a.txt"]], []⟩).2.Nodup) :=
  ⟨by decide, by decide,
    safe_destination_spec.2 ⟨[["d", "r", "a.txt"]], []⟩ ["d"] ["r"] "a.txt" 2
      (by decide) (by decide)⟩
